import Mathlib

/-
Verification of the fuzzing-ci run coordination and feedback engine.

This file shallowly embeds the core of the `tezedge/fuzzing-ci` repository:
the shared status aggregator (`src/feedback.rs`, `SharedFeedbackMap`), the
debounce scheduler (`src/feedback.rs`, `ScheduledUpdater`), snapshot
persistence and prior-run discovery (`src/report.rs`), the report change
summary (`src/report.rs`, `Report::update`), the honggfuzz output filter and
report watcher (`src/hfuzz/target.rs`), and the per-branch run coordination
(`src/server.rs`, `get_sync` / `push_hook`).

Machine integers (`u32`) are modelled as `Nat` with wrap-around addition
modulo `2^32` where the Rust code performs `+=` on a `u32` counter.
-/

namespace FuzzingCI

/-- Wrap-around addition on `u32` (Rust release-mode `+=` semantics). -/
def u32add (a b : Nat) : Nat := (a + b) % 4294967296

/-- `TargetStatus` from `src/report.rs`: coverage counters of one target. -/
structure TargetStatus where
  total : Nat
  covered : Nat
  errors : Nat
deriving DecidableEq, Repr

/-- `FuzzingStatus = HashMap<String, TargetStatus>` (`src/report.rs`),
modelled as an association list; `insert` replaces the binding in place. -/
abbrev FuzzingStatus := List (String × TargetStatus)

/-- `HashMap::insert`: replace the existing binding for `k`, or append. -/
def insertA (k : String) (v : TargetStatus) : FuzzingStatus → FuzzingStatus
  | [] => [(k, v)]
  | (k', v') :: rest => if k' = k then (k, v) :: rest else (k', v') :: insertA k v rest

/-- `HashMap::get_mut(k).map(f)`: modify the binding for `k` if present. -/
def updateA (k : String) (f : TargetStatus → TargetStatus) : FuzzingStatus → FuzzingStatus
  | [] => []
  | (k', v') :: rest => if k' = k then (k', f v') :: rest else (k', v') :: updateA k f rest

/-- `HashMap::get`. -/
def lookupA (k : String) : FuzzingStatus → Option TargetStatus
  | [] => none
  | (k', v') :: rest => if k' = k then some v' else lookupA k rest

/-- `SharedFeedbackMap::set_total` (`src/feedback.rs`): insert
`TargetStatus::new(total, 0, 0)`, overwriting any existing entry. -/
def set_total (m : FuzzingStatus) (target : String) (total : Nat) : FuzzingStatus :=
  insertA target ⟨total, 0, 0⟩ m

/-- `SharedFeedbackMap::add_covered`: add to the counter of a registered
target; a no-op when the target is unknown (`get_mut` returns `None`). -/
def add_covered (m : FuzzingStatus) (target : String) (covered : Nat) : FuzzingStatus :=
  updateA target (fun s => { s with covered := u32add s.covered covered }) m

/-- `SharedFeedbackMap::add_errors`: same shape as `add_covered`. -/
def add_errors (m : FuzzingStatus) (target : String) (errors : Nat) : FuzzingStatus :=
  updateA target (fun s => { s with errors := u32add s.errors errors }) m

/-- `SharedFeedbackMap::snapshot`: a value copy of the map. -/
def snapshot (m : FuzzingStatus) : FuzzingStatus := m

/-- One call into the aggregator. -/
inductive FeedbackOp
  | setTotal (target : String) (total : Nat)
  | addCovered (target : String) (delta : Nat)
  | addErrors (target : String) (delta : Nat)
deriving DecidableEq, Repr

/-- The target a call addresses. -/
def FeedbackOp.target : FeedbackOp → String
  | .setTotal t _ => t
  | .addCovered t _ => t
  | .addErrors t _ => t

/-- Apply one aggregator call to the map. -/
def applyOp (m : FuzzingStatus) : FeedbackOp → FuzzingStatus
  | .setTotal t n => set_total m t n
  | .addCovered t d => add_covered m t d
  | .addErrors t d => add_errors m t d

/-- Run a whole call sequence from the empty map (`SharedFeedbackMap::new`). -/
def execOps (ops : List FeedbackOp) : FuzzingStatus := ops.foldl applyOp []

/-- The effect of one call on a single target's binding. -/
def applyOnEntry (op : FeedbackOp) (e : Option TargetStatus) : Option TargetStatus :=
  match op with
  | .setTotal _ n => some ⟨n, 0, 0⟩
  | .addCovered _ d => e.map fun s => { s with covered := u32add s.covered d }
  | .addErrors _ d => e.map fun s => { s with errors := u32add s.errors d }

theorem lookupA_insertA (t k : String) (v : TargetStatus) (m : FuzzingStatus) :
    lookupA t (insertA k v m) = if k = t then some v else lookupA t m := by
  induction m with
  | nil => simp [insertA, lookupA]
  | cons hd tl ih =>
    obtain ⟨k', v'⟩ := hd
    by_cases h1 : k' = k
    · subst h1
      by_cases h2 : k' = t <;> simp [insertA, lookupA, h2]
    · by_cases h2 : k' = t
      · subst h2
        have hne : ¬ (k = k') := fun h => h1 h.symm
        simp [insertA, lookupA, h1, hne]
      · simp [insertA, lookupA, h1, h2, ih]

theorem lookupA_updateA (t k : String) (f : TargetStatus → TargetStatus) (m : FuzzingStatus) :
    lookupA t (updateA k f m) =
      if k = t then (lookupA t m).map f else lookupA t m := by
  induction m with
  | nil => simp [updateA, lookupA]
  | cons hd tl ih =>
    obtain ⟨k', v'⟩ := hd
    by_cases h1 : k' = k
    · subst h1
      by_cases h2 : k' = t <;> simp [updateA, lookupA, h2]
    · by_cases h2 : k' = t
      · subst h2
        have hne : ¬ (k = k') := fun h => h1 h.symm
        simp [updateA, lookupA, h1, hne]
      · simp [updateA, lookupA, h1, h2, ih]

/-- `updateA` on an absent key leaves the list unchanged. -/
theorem updateA_absent (k : String) (f : TargetStatus → TargetStatus) (m : FuzzingStatus)
    (h : lookupA k m = none) : updateA k f m = m := by
  induction m with
  | nil => simp [updateA]
  | cons hd tl ih =>
    obtain ⟨k', v'⟩ := hd
    by_cases h1 : k' = k
    · simp [lookupA, h1] at h
    · simp [lookupA, h1] at h
      simp [updateA, h1, ih h]

/-- One call seen through a single target's binding. -/
theorem lookupA_applyOp (t : String) (m : FuzzingStatus) (op : FeedbackOp) :
    lookupA t (applyOp m op) =
      if op.target = t then applyOnEntry op (lookupA t m) else lookupA t m := by
  cases op with
  | setTotal k n =>
    simp [applyOp, set_total, FeedbackOp.target, applyOnEntry, lookupA_insertA]
  | addCovered k d =>
    simp [applyOp, add_covered, FeedbackOp.target, applyOnEntry, lookupA_updateA]
  | addErrors k d =>
    simp [applyOp, add_errors, FeedbackOp.target, applyOnEntry, lookupA_updateA]

/-- A target's binding after a call sequence depends only on the calls that
address that target, applied in call order. -/
theorem lookupA_foldl (t : String) (ops : List FeedbackOp) (m : FuzzingStatus) :
    lookupA t (ops.foldl applyOp m) =
      (ops.filter (fun op => op.target = t)).foldl (fun e op => applyOnEntry op e)
        (lookupA t m) := by
  induction ops generalizing m with
  | nil => simp
  | cons op rest ih =>
    by_cases h : op.target = t
    · simp [List.filter, h, ih, lookupA_applyOp]
    · simp [List.filter, h, ih, lookupA_applyOp]

/-- C5: `snapshot()` is exactly the in-order fold of the applied calls
(`setTotal` registers, `addCovered`/`addErrors` accumulate); the accumulators
are no-ops on a target not registered via `setTotal`; and each target's
binding is determined by the per-target subsequence of calls in call order,
so any interleaving across targets with the same per-target order yields the
same snapshot. -/
theorem sharedFeedbackMap_snapshot_fold :
    (∀ ops : List FeedbackOp, snapshot (execOps ops) = List.foldl applyOp [] ops)
    ∧ (∀ (m : FuzzingStatus) (t : String) (d : Nat),
        lookupA t m = none → add_covered m t d = m ∧ add_errors m t d = m)
    ∧ (∀ ops₁ ops₂ : List FeedbackOp,
        (∀ t, ops₁.filter (fun op => op.target = t)
            = ops₂.filter (fun op => op.target = t)) →
        ∀ t, lookupA t (snapshot (execOps ops₁)) = lookupA t (snapshot (execOps ops₂))) := by
  refine ⟨fun ops => rfl, fun m t d h => ⟨updateA_absent t _ m h, updateA_absent t _ m h⟩,
    fun ops₁ ops₂ h t => ?_⟩
  simp only [snapshot, execOps, lookupA_foldl, h t]

theorem sharedFeedbackMap_snapshot_fold_witness :
    add_covered [] "x" 3 = ([] : FuzzingStatus) ∧
    lookupA "a" (snapshot (execOps [.setTotal "a" 1, .setTotal "b" 2])) =
      lookupA "a" (snapshot (execOps [.setTotal "b" 2, .setTotal "a" 1])) := by
  constructor
  · exact (sharedFeedbackMap_snapshot_fold.2.1 [] "x" 3 rfl).1
  · refine sharedFeedbackMap_snapshot_fold.2.2 _ _ ?_ "a"
    intro t
    by_cases ha : "a" = t <;> by_cases hb : "b" = t
    · exact absurd (ha.trans hb.symm) (by decide)
    · simp [List.filter_cons, FeedbackOp.target, ha, hb]
    · simp [List.filter_cons, FeedbackOp.target, ha, hb]
    · simp [List.filter_cons, FeedbackOp.target, ha, hb]

/-- C6 fails as stated: `set_total` inserts `TargetStatus::new(total, 0, 0)`,
so a repeated `setTotal` on a target resets its `covered` (and `errors`)
counter to zero — `covered` decreases from 3 to 0 here, refuting
"non-decreasing under every sequence of operations". -/
theorem targetStatus_monotone_cex :
    lookupA "a" (execOps [.setTotal "a" 5, .addCovered "a" 3]) = some ⟨5, 3, 0⟩
    ∧ lookupA "a" (execOps [.setTotal "a" 5, .addCovered "a" 3, .setTotal "a" 5])
        = some ⟨5, 0, 0⟩
    ∧ ¬ (3 ≤ 0) := by decide

/-- C6 amended: a target's status is monotone under every operation *other
than a repeated `setTotal` on that target* (and absent counter overflow):
appending such an operation preserves `total` and never decreases `covered`
or `errors`; `total` is only ever replaced by `setTotal`, never accumulated.
(The program calls `set_total` once per target, before its accumulators.) -/
theorem targetStatus_monotone_step (ops : List FeedbackOp) (t : String) (op : FeedbackOp)
    (s s' : TargetStatus)
    (hnotset : ∀ d, op ≠ FeedbackOp.setTotal t d)
    (hcov : ∀ d, op = FeedbackOp.addCovered t d → s.covered + d < 4294967296)
    (herr : ∀ d, op = FeedbackOp.addErrors t d → s.errors + d < 4294967296)
    (hs : lookupA t (execOps ops) = some s)
    (hs' : lookupA t (execOps (ops ++ [op])) = some s') :
    s.total = s'.total ∧ s.covered ≤ s'.covered ∧ s.errors ≤ s'.errors := by
  have hstep : execOps (ops ++ [op]) = applyOp (execOps ops) op := by
    simp [execOps, List.foldl_append]
  rw [hstep, lookupA_applyOp, hs] at hs'
  cases op with
  | setTotal k n =>
    by_cases hk : k = t
    · exact absurd (by rw [hk]) (hnotset n)
    · simp [FeedbackOp.target, hk] at hs'
      simp [hs']
  | addCovered k d =>
    by_cases hk : k = t
    · subst hk
      simp [FeedbackOp.target, applyOnEntry] at hs'
      have hlt := hcov d rfl
      rw [← hs']
      simp [u32add, Nat.mod_eq_of_lt hlt]
    · simp [FeedbackOp.target, hk] at hs'
      simp [hs']
  | addErrors k d =>
    by_cases hk : k = t
    · subst hk
      simp [FeedbackOp.target, applyOnEntry] at hs'
      have hlt := herr d rfl
      rw [← hs']
      simp [u32add, Nat.mod_eq_of_lt hlt]
    · simp [FeedbackOp.target, hk] at hs'
      simp [hs']

theorem targetStatus_monotone_step_witness :
    (5 : Nat) = 5 ∧ (3 : Nat) ≤ 4 ∧ (0 : Nat) ≤ 0 := by
  have h := targetStatus_monotone_step [.setTotal "a" 5, .addCovered "a" 3] "a"
    (.addCovered "a" 1) ⟨5, 3, 0⟩ ⟨5, 4, 0⟩
    (by intro d h; cases h) (by intro d h; cases h; decide) (by intro d h; cases h)
    (by decide) (by decide)
  exact h

/-- Configuration of `ScheduledUpdater` (`src/feedback.rs`): the three
timeout tiers, in the same discrete time unit as event instants. -/
structure SchedConfig where
  startTimeout : Nat
  updateTimeout : Nat
  noUpdateTimeout : Nat

/-- The `ScheduledUpdater::start` event loop (`src/feedback.rs:209-234`),
run over a discrete timeline.  `d` is the absolute expiry instant of the
armed `sleep(timeout)` (the sleep is re-created from "now" on every loop
iteration, so after an event at `t` with timeout `T` it expires at `t + T`);
`upd` is the `update` flag; `st` is the `start` flag.  `updates` is the
sorted list of instants at which `updated.notify_one` arrives, `stop` the
instant of `stopped.notify_one`, if any.  The result lists the callback
invocations as `(instant, hadUpdate)` pairs.  `fuel` bounds loop
iterations.  `tokio::select!` polls ready branches in unspecified order, so
exact ties between branches are a race in the source; this model fixes the
policy update-then-stop-then-timer, and the theorems below avoid ties.
On a timer expiry the callback fires, `update` resets, the wait is rearmed
to `noUpdateTimeout` and `start` clears; on an update the wait is rearmed to
`startTimeout` if `start` else `updateTimeout`; on stop the loop returns,
dropping the pending timer. -/
def schedRun (cfg : SchedConfig) :
    Nat → Nat → Bool → Bool → List Nat → Option Nat → List (Nat × Bool)
  | 0, _, _, _, _, _ => []
  | fuel + 1, d, upd, st, updates, stop =>
    match updates, stop with
    | u :: rest, none =>
      if u ≤ d then
        schedRun cfg fuel (u + (if st then cfg.startTimeout else cfg.updateTimeout))
          true st rest none
      else
        (d, upd) :: schedRun cfg fuel (d + cfg.noUpdateTimeout) false false (u :: rest) none
    | u :: rest, some s =>
      if u ≤ d ∧ u ≤ s then
        schedRun cfg fuel (u + (if st then cfg.startTimeout else cfg.updateTimeout))
          true st rest (some s)
      else if s ≤ d then []
      else
        (d, upd) :: schedRun cfg fuel (d + cfg.noUpdateTimeout) false false (u :: rest) (some s)
    | [], none =>
      (d, upd) :: schedRun cfg fuel (d + cfg.noUpdateTimeout) false false [] none
    | [], some s =>
      if s ≤ d then []
      else (d, upd) :: schedRun cfg fuel (d + cfg.noUpdateTimeout) false false [] (some s)

/-- With no updates pending and no stop, the loop fires a heartbeat every
`noUpdateTimeout`, always with `hadUpdate = false`. -/
theorem schedRun_heartbeats (cfg : SchedConfig) :
    ∀ (fuel : Nat) (d : Nat) (st : Bool),
      schedRun cfg fuel d false st [] none
        = (List.range fuel).map (fun k => (d + k * cfg.noUpdateTimeout, false)) := by
  intro fuel
  induction fuel with
  | zero => intro d st; rfl
  | succ n ih =>
    intro d st
    have hunf : schedRun cfg (n + 1) d false st [] none
        = (d, false) :: schedRun cfg n (d + cfg.noUpdateTimeout) false false [] none := rfl
    rw [hunf, ih, List.range_succ_eq_map]
    simp only [List.map_cons, List.map_map, Nat.zero_mul, Nat.add_zero]
    refine congrArg (List.cons _) (List.map_congr_left fun k _ => ?_)
    simp only [Function.comp_apply, Prod.mk.injEq, Nat.succ_mul, and_true]
    omega

/-- Every fire instant of the heartbeat-only loop is at or after the armed
deadline. -/
theorem schedRun_heartbeats_ge (cfg : SchedConfig) (fuel d : Nat) (st : Bool) :
    ∀ e ∈ schedRun cfg fuel d false st [] none, d ≤ e.1 := by
  rw [schedRun_heartbeats]
  intro e he
  simp only [List.mem_map, List.mem_range] at he
  obtain ⟨k, -, rfl⟩ := he
  exact Nat.le_add_right _ _

/-- A stop signal truncates the heartbeat loop to the fires strictly before
the stop instant and cancels everything from there on. -/
theorem schedRun_stop_filter (cfg : SchedConfig) :
    ∀ (fuel : Nat) (d : Nat) (st : Bool) (s : Nat),
      schedRun cfg fuel d false st [] (some s)
        = (schedRun cfg fuel d false st [] none).filter (fun e => e.1 < s) := by
  intro fuel
  induction fuel with
  | zero => intro d st s; rfl
  | succ n ih =>
    intro d st s
    have hunf : schedRun cfg (n + 1) d false st [] (some s)
        = if s ≤ d then []
          else (d, false) :: schedRun cfg n (d + cfg.noUpdateTimeout) false false [] (some s) :=
      rfl
    have hunf' : schedRun cfg (n + 1) d false st [] none
        = (d, false) :: schedRun cfg n (d + cfg.noUpdateTimeout) false false [] none := rfl
    by_cases hs : s ≤ d
    · rw [hunf, if_pos hs]
      symm
      rw [List.filter_eq_nil_iff]
      intro e he
      have := schedRun_heartbeats_ge cfg (n + 1) d st e he
      simp only [decide_eq_true_eq]
      omega
    · rw [hunf, if_neg hs, hunf', List.filter_cons]
      have hd : d < s := Nat.lt_of_not_le hs
      simp only [hd, decide_True, if_true]
      rw [ih]

/-- C4: starting in the initial state (wait armed to `noUpdateTimeout`, no
update seen, first burst pending), with zero update events the callback
fires at `noUpdateTimeout`, `2·noUpdateTimeout`, ... indefinitely, always
with `hadUpdate = false`; once the stop signal at instant `s` is received
the loop terminates permanently: exactly the fires strictly before `s`
happen and no further callback, including the pending one, ever fires. -/
theorem scheduledUpdater_no_updates :
    ∀ cfg : SchedConfig,
      (∀ fuel, schedRun cfg fuel cfg.noUpdateTimeout false true [] none
        = (List.range fuel).map (fun k => (cfg.noUpdateTimeout + k * cfg.noUpdateTimeout, false)))
      ∧ (∀ fuel s, schedRun cfg fuel cfg.noUpdateTimeout false true [] (some s)
        = ((List.range fuel).map
            (fun k => (cfg.noUpdateTimeout + k * cfg.noUpdateTimeout, false))).filter
          (fun e => e.1 < s)) := by
  intro cfg
  constructor
  · intro fuel
    exact schedRun_heartbeats cfg fuel _ _
  · intro fuel s
    rw [schedRun_stop_filter, schedRun_heartbeats]

/-- The heartbeat-only tail never fires with `hadUpdate = true`. -/
theorem schedRun_tail_no_true (cfg : SchedConfig) (fuel d : Nat) (st : Bool) :
    (schedRun cfg fuel d false st [] none).filter (fun e => e.2) = [] := by
  rw [schedRun_heartbeats, List.filter_eq_nil_iff]
  intro e he
  simp only [List.mem_map] at he
  obtain ⟨k, -, rfl⟩ := he
  simp

/-- Processing one burst: if the next update is at or before the armed
deadline and each later update follows within the rearm timeout (which is
`startTimeout` while `start` is set, else `updateTimeout`), no timer expires
inside the burst, and the sole `hadUpdate = true` fire lands at the last
update instant plus that timeout. -/
theorem schedRun_burst (cfg : SchedConfig) (st : Bool) :
    ∀ (ts : List Nat) (u : Nat) (fuel d : Nat) (upd : Bool),
      u ≤ d →
      List.Chain (fun a b => b ≤ a + (if st then cfg.startTimeout else cfg.updateTimeout)) u ts →
      ts.length + 2 ≤ fuel →
      (schedRun cfg fuel d upd st (u :: ts) none).filter (fun e => e.2)
        = [((u :: ts).getLast (List.cons_ne_nil u ts)
            + (if st then cfg.startTimeout else cfg.updateTimeout), true)] := by
  intro ts
  induction ts with
  | nil =>
    intro u fuel d upd hud _ hfuel
    match fuel, hfuel with
    | n + 2, _ =>
      have h1 : schedRun cfg (n + 2) d upd st [u] none
          = if u ≤ d then
              schedRun cfg (n + 1)
                (u + (if st then cfg.startTimeout else cfg.updateTimeout)) true st [] none
            else (d, upd) :: schedRun cfg (n + 1) (d + cfg.noUpdateTimeout) false false [u] none :=
        rfl
      have h2 : schedRun cfg (n + 1)
            (u + (if st then cfg.startTimeout else cfg.updateTimeout)) true st [] none
          = (u + (if st then cfg.startTimeout else cfg.updateTimeout), true)
            :: schedRun cfg n
                (u + (if st then cfg.startTimeout else cfg.updateTimeout) + cfg.noUpdateTimeout)
                false false [] none := rfl
      rw [h1, if_pos hud, h2, List.filter_cons]
      simp only [decide_True, if_true]
      rw [schedRun_tail_no_true]
      simp [List.getLast]
  | cons v vs ih =>
    intro u fuel d upd hud hchain hfuel
    cases fuel with
    | zero => simp at hfuel
    | succ n =>
      have h1 : schedRun cfg (n + 1) d upd st (u :: v :: vs) none
          = if u ≤ d then
              schedRun cfg n
                (u + (if st then cfg.startTimeout else cfg.updateTimeout)) true st (v :: vs) none
            else (d, upd) :: schedRun cfg n (d + cfg.noUpdateTimeout) false false (u :: v :: vs) none :=
        rfl
      rw [h1, if_pos hud]
      cases hchain with
      | cons hv hchain' =>
        have := ih v n (u + (if st then cfg.startTimeout else cfg.updateTimeout)) true
          hv hchain' (by simp only [List.length_cons] at hfuel ⊢; omega)
        rw [this]
        simp [List.getLast]

/-- Heartbeats tick until the burst's first update is due; the burst then
runs with `start` already cleared, so the rearm timeout is `updateTimeout`. -/
theorem schedRun_preburst (cfg : SchedConfig) (hno : 1 ≤ cfg.noUpdateTimeout) :
    ∀ (fuel : Nat) (d : Nat) (st : Bool) (u : Nat) (ts : List Nat),
      d < u →
      List.Chain (fun a b => b ≤ a + cfg.updateTimeout) u ts →
      u - d + ts.length + 3 ≤ fuel →
      (schedRun cfg fuel d false st (u :: ts) none).filter (fun e => e.2)
        = [((u :: ts).getLast (List.cons_ne_nil u ts) + cfg.updateTimeout, true)] := by
  intro fuel
  induction fuel with
  | zero =>
    intro d st u ts hdu _ hfuel
    omega
  | succ n ihf =>
    intro d st u ts hdu hchain hfuel
    have h1 : schedRun cfg (n + 1) d false st (u :: ts) none
        = if u ≤ d then
            schedRun cfg n
              (u + (if st then cfg.startTimeout else cfg.updateTimeout)) true st ts none
          else (d, false) :: schedRun cfg n (d + cfg.noUpdateTimeout) false false (u :: ts) none :=
      rfl
    rw [h1, if_neg (Nat.not_le_of_lt hdu), List.filter_cons]
    simp only [decide_False, Bool.false_eq_true, if_false]
    by_cases hnext : u ≤ d + cfg.noUpdateTimeout
    · have hb := schedRun_burst cfg false ts u n (d + cfg.noUpdateTimeout) false hnext
        (by simpa using hchain) (by omega)
      simpa using hb
    · exact ihf (d + cfg.noUpdateTimeout) false u ts (Nat.lt_of_not_le hnext) hchain (by omega)

/-- C3 amended: for a burst of updates at `u :: ts` (strictly increasing,
each within `updateTimeout` of the previous, *and within `startTimeout` of
the previous when the burst is the first one*, i.e. when `u` is due before
the initial `noUpdateTimeout` deadline so no callback fired earlier),
exactly one `hadUpdate = true` callback fires, at the last update instant
plus `startTimeout` for the first burst and plus `updateTimeout` otherwise.
The original claim lets first-burst gaps reach up to `updateTimeout`; the
code rearms to `startTimeout` after every first-burst update, so a gap in
`(startTimeout, updateTimeout]` splits the first burst — see the
counterexample. -/
theorem scheduledUpdater_burst_fires_once (cfg : SchedConfig) (hno : 1 ≤ cfg.noUpdateTimeout)
    (u : Nat) (ts : List Nat)
    (hchain : List.Chain (fun a b => a < b ∧ b ≤ a + cfg.updateTimeout
        ∧ (u ≤ cfg.noUpdateTimeout → b ≤ a + cfg.startTimeout)) u ts)
    (fuel : Nat) (hfuel : u + ts.length + 4 ≤ fuel) :
    (schedRun cfg fuel cfg.noUpdateTimeout false true (u :: ts) none).filter (fun e => e.2)
      = [((u :: ts).getLast (List.cons_ne_nil u ts)
          + (if u ≤ cfg.noUpdateTimeout then cfg.startTimeout else cfg.updateTimeout), true)] := by
  by_cases hfb : u ≤ cfg.noUpdateTimeout
  · rw [if_pos hfb]
    have hb := schedRun_burst cfg true ts u fuel cfg.noUpdateTimeout false hfb
      (hchain.imp fun a b hab => by simpa using hab.2.2 hfb) (by omega)
    simpa using hb
  · rw [if_neg hfb]
    exact schedRun_preburst cfg hno fuel cfg.noUpdateTimeout true u ts
      (Nat.lt_of_not_le hfb) (hchain.imp fun a b hab => hab.2.1) (by omega)

theorem scheduledUpdater_burst_fires_once_witness :
    (schedRun ⟨3, 5, 100⟩ 15 100 false true [10, 12] none).filter (fun e => e.2)
      = [(15, true)] := by
  have h := scheduledUpdater_burst_fires_once ⟨3, 5, 100⟩ (by decide) 10 [12]
    (List.Chain.cons (by refine ⟨by decide, by decide, fun _ => by decide⟩) List.Chain.nil)
    15 (by decide)
  simpa using h

/-- C3 fails as stated: with `startTimeout = 1 < updateTimeout = 5` and
first-burst updates at 10 and 12 (within `updateTimeout` of each other),
the loop rearms to `startTimeout` after the update at 10, so the timer
expires at 11 — before the update at 12 — and a second `hadUpdate = true`
fire follows at `12 + updateTimeout = 17`.  The claim predicts exactly one
fire, at `12 + startTimeout = 13`. -/
theorem scheduledUpdater_burst_cex :
    (schedRun ⟨1, 5, 100⟩ 4 100 false true [10, 12] none).filter (fun e => e.2)
      = [(11, true), (17, true)]
    ∧ ((schedRun ⟨1, 5, 100⟩ 4 100 false true [10, 12] none).filter (fun e => e.2)).length ≠ 1 := by
  decide

/-- One directory entry as `Report::find_previous` (`src/report.rs`)
inspects it: its path, whether it is a directory, whether it contains the
persisted snapshot file `hfuzz-status.toml`, and its filesystem creation
timestamp. -/
structure DirEntry where
  path : String
  isDir : Bool
  hasStatusFile : Bool
  created : Nat
deriving DecidableEq, Repr

/-- The qualification test of `find_previous`'s loop (`src/report.rs:333-336`):
a directory, not the current run directory, containing the snapshot file. -/
def qualifies (current : String) (e : DirEntry) : Bool :=
  e.isDir && e.path != current && e.hasStatusFile

/-- The accumulator update of `find_previous`'s loop (`src/report.rs:337-343`)
on the already-filtered entries: a candidate is skipped only when the stored
`latest` is strictly newer (`latest.1 > created`), so an equal timestamp
replaces the stored entry — ties go to the entry seen last. -/
def bestOf : List DirEntry → Option (String × Nat) → Option (String × Nat)
  | [], latest => latest
  | e :: rest, latest =>
    match latest with
    | some l =>
      if l.2 > e.created then bestOf rest (some l)
      else bestOf rest (some (e.path, e.created))
    | none => bestOf rest (some (e.path, e.created))

/-- The whole loop of `Report::find_previous`: test each entry, fold the
qualifying ones through the `latest` accumulator. -/
def findPreviousLoop (current : String) :
    List DirEntry → Option (String × Nat) → Option (String × Nat)
  | [], latest => latest
  | e :: rest, latest =>
    if qualifies current e then
      match latest with
      | some l =>
        if l.2 > e.created then findPreviousLoop current rest (some l)
        else findPreviousLoop current rest (some (e.path, e.created))
      | none => findPreviousLoop current rest (some (e.path, e.created))
    else findPreviousLoop current rest latest

/-- `Report::find_previous` (`src/report.rs:317-348`): `reports` is the
parent directory's listing, `none` when `read_dir` itself failed (e.g. the
parent does not exist) — that case returns `Ok(None)`, not an error. -/
def find_previous (reports : Option (List DirEntry)) (current : String) : Option String :=
  match reports with
  | none => none
  | some entries => (findPreviousLoop current entries none).map (fun l => l.1)

/-- The loop is the accumulator fold over the qualifying entries. -/
theorem findPreviousLoop_filter (current : String) :
    ∀ (entries : List DirEntry) (acc : Option (String × Nat)),
      findPreviousLoop current entries acc
        = bestOf (entries.filter (qualifies current)) acc := by
  intro entries
  induction entries with
  | nil => intro acc; rfl
  | cons e rest ih =>
    intro acc
    by_cases hq : qualifies current e
    · cases acc with
      | none => simp [findPreviousLoop, bestOf, hq, List.filter_cons, ih]
      | some l =>
        by_cases hgt : l.2 > e.created <;>
          simp [findPreviousLoop, bestOf, hq, hgt, List.filter_cons, ih]
    · cases acc with
      | none => simp [findPreviousLoop, bestOf, hq, List.filter_cons, ih]
      | some l => simp [findPreviousLoop, bestOf, hq, List.filter_cons, ih]

/-- Running the fold from a stored candidate `(p, c)`: either every entry is
strictly older than `c` and the candidate survives, or the result is an
entry of the list that is at least as new as `c`, at least as new as every
entry before it, and strictly newer than every entry after it. -/
theorem bestOf_some_spec :
    ∀ (l : List DirEntry) (p : String) (c : Nat),
      (bestOf l (some (p, c)) = some (p, c) ∧ ∀ x ∈ l, x.created < c)
      ∨ (∃ pre e post, l = pre ++ e :: post
          ∧ bestOf l (some (p, c)) = some (e.path, e.created)
          ∧ c ≤ e.created
          ∧ (∀ x ∈ pre, x.created ≤ e.created)
          ∧ (∀ x ∈ post, x.created < e.created)) := by
  intro l
  induction l with
  | nil => intro p c; exact Or.inl ⟨rfl, by simp⟩
  | cons x rest ih =>
    intro p c
    by_cases hgt : c > x.created
    · have hstep : bestOf (x :: rest) (some (p, c)) = bestOf rest (some (p, c)) := by
        simp [bestOf, hgt]
      rcases ih p c with ⟨heq, hall⟩ | ⟨pre, e, post, hsplit, heq, hce, hpre, hpost⟩
      · refine Or.inl ⟨hstep.trans heq, ?_⟩
        intro y hy
        rcases List.mem_cons.mp hy with rfl | hy'
        · exact hgt
        · exact hall y hy'
      · refine Or.inr ⟨x :: pre, e, post, by rw [hsplit]; rfl, hstep.trans heq, hce, ?_, hpost⟩
        intro y hy
        rcases List.mem_cons.mp hy with rfl | hy'
        · exact Nat.le_trans (Nat.le_of_lt hgt) hce
        · exact hpre y hy'
    · have hstep : bestOf (x :: rest) (some (p, c))
          = bestOf rest (some (x.path, x.created)) := by
        simp [bestOf, hgt]
      rcases ih x.path x.created with ⟨heq, hall⟩ | ⟨pre, e, post, hsplit, heq, hce, hpre, hpost⟩
      · exact Or.inr ⟨[], x, rest, rfl, hstep.trans heq, Nat.le_of_not_lt hgt, by simp, hall⟩
      · refine Or.inr ⟨x :: pre, e, post, by rw [hsplit]; rfl, hstep.trans heq,
          Nat.le_trans (Nat.le_of_not_lt hgt) hce, ?_, hpost⟩
        intro y hy
        rcases List.mem_cons.mp hy with rfl | hy'
        · exact hce
        · exact hpre y hy'

/-- The fold from an empty accumulator picks the last entry of maximal
creation time. -/
theorem bestOf_spec (l : List DirEntry) (hne : l ≠ []) :
    ∃ pre e post, l = pre ++ e :: post
      ∧ bestOf l none = some (e.path, e.created)
      ∧ (∀ x ∈ pre, x.created ≤ e.created)
      ∧ (∀ x ∈ post, x.created < e.created) := by
  match l, hne with
  | x :: rest, _ =>
    have hstep : bestOf (x :: rest) none = bestOf rest (some (x.path, x.created)) := rfl
    rcases bestOf_some_spec rest x.path x.created with
      ⟨heq, hall⟩ | ⟨pre, e, post, hsplit, heq, hce, hpre, hpost⟩
    · exact ⟨[], x, rest, rfl, hstep.trans heq, by simp, hall⟩
    · refine ⟨x :: pre, e, post, by rw [hsplit]; rfl, hstep.trans heq, ?_, hpost⟩
      intro y hy
      rcases List.mem_cons.mp hy with rfl | hy'
      · exact hce
      · exact hpre y hy'

/-- C7: `find_previous` scans the immediate entries of the run's parent
directory; an entry qualifies iff it is a directory other than the current
run directory containing the persisted snapshot file; the result is the
qualifying entry of maximal creation timestamp, with comparisons by strict
greater-than so an equal timestamp is replaced — ties resolve to the entry
seen last; and the result is `none`, not an error, when the parent listing
is unavailable or no entry qualifies. -/
theorem find_previous_correct (current : String) :
    (find_previous none current = none)
    ∧ (∀ entries : List DirEntry, entries.filter (qualifies current) = [] →
        find_previous (some entries) current = none)
    ∧ (∀ entries : List DirEntry, entries.filter (qualifies current) ≠ [] →
        ∃ pre e post, entries.filter (qualifies current) = pre ++ e :: post
          ∧ find_previous (some entries) current = some e.path
          ∧ (∀ x ∈ pre, x.created ≤ e.created)
          ∧ (∀ x ∈ post, x.created < e.created)) := by
  refine ⟨rfl, ?_, ?_⟩
  · intro entries hnil
    simp [find_previous, findPreviousLoop_filter, hnil, bestOf]
  · intro entries hne
    obtain ⟨pre, e, post, hsplit, heq, hpre, hpost⟩ :=
      bestOf_spec (entries.filter (qualifies current)) hne
    refine ⟨pre, e, post, hsplit, ?_, hpre, hpost⟩
    simp [find_previous, findPreviousLoop_filter, heq]

theorem find_previous_correct_witness :
    find_previous (some [⟨"curr", true, true, 7⟩, ⟨"r2", false, true, 9⟩]) "curr" = none
    ∧ (∃ pre e post,
        ([⟨"r1", true, true, 5⟩, ⟨"r3", true, true, 6⟩] : List DirEntry)
          = pre ++ e :: post
        ∧ find_previous (some [⟨"r1", true, true, 5⟩, ⟨"r3", true, true, 6⟩]) "curr"
            = some e.path
        ∧ (∀ x ∈ pre, x.created ≤ e.created)
        ∧ (∀ x ∈ post, x.created < e.created)) := by
  constructor
  · exact (find_previous_correct "curr").2.1 _ (by decide)
  · have h := (find_previous_correct "curr").2.2
      [⟨"r1", true, true, 5⟩, ⟨"r3", true, true, 6⟩] (by decide)
    simpa using h

/-- Decimal digit character. -/
def digitChar (d : Nat) : Char := Char.ofNat (48 + d)

/-- Decimal rendering of a counter value, most significant digit first. -/
def natChars (n : Nat) : List Char :=
  if n = 0 then ['0'] else ((Nat.digits 10 n).map digitChar).reverse

def isDigitChar (c : Char) : Bool := 48 ≤ c.toNat && c.toNat ≤ 57

/-- Decimal parsing: all characters must be digits, value by left fold. -/
def parseNat (cs : List Char) : Option Nat :=
  if cs ≠ [] ∧ cs.all isDigitChar = true then
    some (cs.foldl (fun a c => a * 10 + (c.toNat - 48)) 0)
  else none

/-- One `key = value` line of the persisted TOML snapshot. -/
def kvLine (key : List Char) (n : Nat) : List Char :=
  key ++ (' ' :: '=' :: ' ' :: natChars n)

/-- One `[target-name]` section header of the persisted TOML snapshot. -/
def sectionLine (name : List Char) : List Char :=
  '[' :: (name ++ [']'])

/-- `Report::serialize` (`src/report.rs:350-353`): the `FuzzingStatus` map
rendered as TOML text, one `[name]` section per target followed by its
`total`, `covered`, `errors` fields in struct order; modelled as the list
of text lines. -/
def serialize : FuzzingStatus → List (List Char)
  | [] => []
  | (name, s) :: rest =>
    sectionLine name.data :: kvLine "total".data s.total
      :: kvLine "covered".data s.covered :: kvLine "errors".data s.errors :: serialize rest

/-- Consume an expected literal token at the front of a line. -/
def dropToken : List Char → List Char → Option (List Char)
  | [], cs => some cs
  | _ :: _, [] => none
  | p :: ps, c :: cs => if c = p then dropToken ps cs else none

/-- Split a section line body at the closing bracket. -/
def takeName : List Char → Option (List Char × List Char)
  | [] => none
  | c :: cs =>
    if c = ']' then some ([], cs)
    else (takeName cs).map (fun nr => (c :: nr.1, nr.2))

/-- Parse a `[target-name]` header line. -/
def parseSection : List Char → Option String
  | '[' :: cs =>
    (takeName cs).bind (fun nr => if nr.2 = [] then some (String.mk nr.1) else none)
  | _ => none

/-- Parse a `key = value` line. -/
def parseKV (key : List Char) (line : List Char) : Option Nat :=
  (dropToken (key ++ [' ', '=', ' ']) line).bind parseNat

/-- `Report::deserialize` (`src/report.rs:355-358`): rebuild the map from
the persisted TOML text. -/
def deserialize : List (List Char) → Option FuzzingStatus
  | [] => some []
  | l1 :: l2 :: l3 :: l4 :: rest => do
    let name ← parseSection l1
    let t ← parseKV "total".data l2
    let c ← parseKV "covered".data l3
    let e ← parseKV "errors".data l4
    let tail ← deserialize rest
    pure ((name, ⟨t, c, e⟩) :: tail)
  | _ => none

theorem digitChar_toNat {d : Nat} (h : d < 10) : (digitChar d).toNat = 48 + d := by
  interval_cases d <;> decide

theorem isDigitChar_digitChar {d : Nat} (h : d < 10) : isDigitChar (digitChar d) = true := by
  interval_cases d <;> decide

theorem foldl_digits (ds : List Nat) :
    ∀ a : Nat, (∀ d ∈ ds, d < 10) →
      ((ds.map digitChar).reverse).foldl (fun a c => a * 10 + (c.toNat - 48)) a
        = a * 10 ^ ds.length + Nat.ofDigits 10 ds := by
  induction ds with
  | nil => intro a _; simp [Nat.ofDigits]
  | cons d rest ih =>
    intro a hd
    have hd10 : d < 10 := hd d (List.mem_cons_self d rest)
    simp only [List.map_cons, List.reverse_cons, List.foldl_append, List.foldl_cons,
      List.foldl_nil]
    rw [ih a (fun x hx => hd x (List.mem_cons_of_mem d hx))]
    rw [digitChar_toNat hd10]
    simp only [Nat.ofDigits_cons, List.length_cons]
    have : 48 + d - 48 = d := by omega
    rw [this]
    ring

theorem parseNat_natChars (n : Nat) : parseNat (natChars n) = some n := by
  by_cases h0 : n = 0
  · subst h0; decide
  · have hne : Nat.digits 10 n ≠ [] := Nat.digits_ne_nil_iff_ne_zero.mpr h0
    have hlt : ∀ d ∈ Nat.digits 10 n, d < 10 :=
      fun d hd => Nat.digits_lt_base (by norm_num) hd
    have hall : ((Nat.digits 10 n).map digitChar).reverse.all isDigitChar = true := by
      simp only [List.all_eq_true, List.mem_reverse, List.mem_map]
      rintro c ⟨d, hd, rfl⟩
      exact isDigitChar_digitChar (hlt d hd)
    have hne' : ((Nat.digits 10 n).map digitChar).reverse ≠ [] := by
      simp [hne]
    rw [natChars, if_neg h0, parseNat, if_pos ⟨hne', hall⟩]
    rw [foldl_digits _ 0 hlt]
    simp [Nat.ofDigits_digits]

theorem dropToken_append (p rest : List Char) : dropToken p (p ++ rest) = some rest := by
  induction p with
  | nil => rfl
  | cons c cs ih => simp [dropToken, ih]

theorem takeName_append (name : List Char) (h : (']' : Char) ∉ name) :
    takeName (name ++ [']']) = some (name, []) := by
  induction name with
  | nil => rfl
  | cons c cs ih =>
    have hc : c ≠ ']' := fun hc => h (hc ▸ List.mem_cons_self c cs)
    simp only [List.cons_append, takeName, if_neg hc, List.append_eq]
    rw [ih (fun hm => h (List.mem_cons_of_mem c hm))]
    rfl

theorem parseKV_kvLine (key : List Char) (n : Nat) :
    parseKV key (kvLine key n) = some n := by
  have : kvLine key n = (key ++ [' ', '=', ' ']) ++ natChars n := by
    simp [kvLine]
  rw [parseKV, this, dropToken_append]
  simp [parseNat_natChars]

theorem parseSection_sectionLine (name : List Char) (h : (']' : Char) ∉ name) :
    parseSection (sectionLine name) = some (String.mk name) := by
  simp [parseSection, sectionLine, takeName_append name h]

/-- C8: snapshot persistence round-trips exactly — serializing a
`FuzzingStatus` and deserializing the result reproduces an identical value
(for target names without a closing bracket, which the modelled TOML
encoding leaves unquoted). -/
theorem report_serialize_roundtrip (m : FuzzingStatus)
    (hkeys : ∀ kv ∈ m, (']' : Char) ∉ kv.1.data) :
    deserialize (serialize m) = some m := by
  induction m with
  | nil => rfl
  | cons kv rest ih =>
    obtain ⟨name, s⟩ := kv
    have hname : (']' : Char) ∉ name.data :=
      hkeys (name, s) (List.mem_cons_self _ _)
    have hrest : ∀ kv ∈ rest, (']' : Char) ∉ kv.1.data :=
      fun kv hkv => hkeys kv (List.mem_cons_of_mem _ hkv)
    simp only [serialize, deserialize, parseSection_sectionLine name.data hname,
      parseKV_kvLine, ih hrest, Option.bind_eq_bind, Option.some_bind]
    obtain ⟨nd⟩ := name
    obtain ⟨t, c, e⟩ := s
    rfl

theorem report_serialize_roundtrip_witness :
    deserialize (serialize [("a", ⟨1, 2, 3⟩), ("b", ⟨100, 0, 7⟩)])
      = some [("a", ⟨1, 2, 3⟩), ("b", ⟨100, 0, 7⟩)] :=
  report_serialize_roundtrip [("a", ⟨1, 2, 3⟩), ("b", ⟨100, 0, 7⟩)] (by decide)

/-- `StatusTrend` (`src/report.rs:36-55`). -/
inductive StatusTrend
  | trendNone
  | improvement
  | regression
  | progressing
deriving DecidableEq, Repr

/-- `From<i32> for StatusTrend` (`src/report.rs:45-55`). -/
def trendOf (delta : Int) : StatusTrend :=
  if delta < 0 then .regression else if delta > 0 then .improvement else .trendNone

/-- `TargetStatusDelta` (`src/report.rs:28-34`): signed field differences
`curr - prev`, built by the `From` impl at `src/report.rs:85-94`. -/
structure TargetStatusDelta where
  total : Int
  covered : Int
  errors : Int
  trend : StatusTrend
deriving DecidableEq, Repr

def mkDelta (curr prev : TargetStatus) : TargetStatusDelta :=
  { total := (curr.total : Int) - prev.total
    covered := (curr.covered : Int) - prev.covered
    errors := (curr.errors : Int) - prev.errors
    trend := trendOf ((curr.total : Int) - prev.total) }

/-- `TargetStatusDiff` (`src/report.rs:64-83`): current status with up to
three baselines and their deltas. -/
structure TargetStatusDiff where
  name : String
  curr : TargetStatus
  prev : Option TargetStatus
  delta : Option TargetStatusDelta
  init : Option TargetStatus
  delta_init : Option TargetStatusDelta
  prev_run : Option TargetStatus
  delta_run : Option TargetStatusDelta
deriving DecidableEq, Repr

/-- The `From` impl at `src/report.rs:96-128`: each delta is present iff
its baseline is. -/
def mkDiff (name : String) (curr : TargetStatus)
    (prev init prev_run : Option TargetStatus) : TargetStatusDiff :=
  { name := name
    curr := curr
    prev := prev
    delta := prev.map (mkDelta curr)
    init := init
    delta_init := init.map (mkDelta curr)
    prev_run := prev_run
    delta_run := prev_run.map (mkDelta curr) }

/-- `Report::get_diff` (`src/report.rs:466-490`): look each baseline up by
target name; `previous` is the prior-run snapshot loaded once in
`Report::new`. -/
def get_diff (previous : Option FuzzingStatus) (name : String) (curr : TargetStatus)
    (prev_report init_report : Option FuzzingStatus) : TargetStatusDiff :=
  mkDiff name curr
    (prev_report.bind (lookupA name))
    (init_report.bind (lookupA name))
    (previous.bind (lookupA name))

/-- One line of the plain-text change summary of `Report::update`. -/
inductive SummaryItem
  | sincePrev (name : String) (dcovered : Int)
  | sinceRun (name : String) (dcovered dtotal : Int)
  | noChange
deriving DecidableEq, Repr

/-- The summary loop of `Report::update` (`src/report.rs:437-458`): when the
previous-report baseline and its delta are present, a line is emitted only
for a nonzero covered delta — `else if` means the previous-run branch is
not even examined then; only with no previous-report baseline does a
nonzero `(covered, total)` delta against the previous run emit a line. -/
def summaryItems : List TargetStatusDiff → List SummaryItem
  | [] => []
  | diff :: rest =>
    match diff.prev, diff.delta with
    | some _, some delta =>
      if delta.covered ≠ 0 then .sincePrev diff.name delta.covered :: summaryItems rest
      else summaryItems rest
    | _, _ =>
      match diff.prev_run, diff.delta_run with
      | some _, some delta =>
        if ¬ (delta.covered = 0 ∧ delta.total = 0) then
          .sinceRun diff.name delta.covered delta.total :: summaryItems rest
        else summaryItems rest
      | _, _ => summaryItems rest

/-- `Report::update`, summary part (`src/report.rs:437-461`): the emitted
lines, or the explicit "No changed detected" line when none was emitted. -/
def changeSummary (diffs : List TargetStatusDiff) : List SummaryItem :=
  if summaryItems diffs = [] then [.noChange] else summaryItems diffs

/-- Target names appearing in a summary. -/
def listedNames (items : List SummaryItem) : List String :=
  items.filterMap fun item =>
    match item with
    | .sincePrev n _ => some n
    | .sinceRun n _ _ => some n
    | .noChange => none

/-- Modelled from the spec's words for C9 (the claimed listing condition):
a target is listed iff it has a nonzero covered delta since the last
report, or a nonzero covered/total delta since the prior run. -/
def specListedB (d : TargetStatusDiff) : Bool :=
  d.delta.any (fun delta => delta.covered ≠ 0)
  || d.delta_run.any (fun delta => ¬ (delta.covered = 0 ∧ delta.total = 0))

/-- The listing condition the code actually implements: a nonzero covered
delta since the last report, or — only when there is no last-report
baseline at all — a nonzero covered/total delta since the prior run. -/
def codeListedB (d : TargetStatusDiff) : Bool :=
  (d.prev.isSome && d.delta.any (fun delta => delta.covered ≠ 0))
  || (!(d.prev.isSome && d.delta.isSome)
      && d.prev_run.isSome && d.delta_run.any (fun delta => ¬ (delta.covered = 0 ∧ delta.total = 0)))

/-- The summary line a listed diff produces. -/
def itemOf (d : TargetStatusDiff) : SummaryItem :=
  match d.prev, d.delta with
  | some _, some delta => .sincePrev d.name delta.covered
  | _, _ =>
    match d.prev_run, d.delta_run with
    | some _, some delta => .sinceRun d.name delta.covered delta.total
    | _, _ => .noChange

theorem summaryItems_cons (d : TargetStatusDiff) (rest : List TargetStatusDiff) :
    summaryItems (d :: rest)
      = if codeListedB d then itemOf d :: summaryItems rest else summaryItems rest := by
  rcases hp : d.prev with - | p <;> rcases hd : d.delta with - | delta <;>
    rcases hpr : d.prev_run with - | pr <;> rcases hdr : d.delta_run with - | dr
  all_goals
    solve
      | (by_cases hcov : delta.covered = 0 <;> by_cases hc1 : dr.covered = 0 <;>
          by_cases hc2 : dr.total = 0 <;>
          simp [summaryItems, codeListedB, itemOf, hp, hd, hpr, hdr, hcov, hc1, hc2])
      | (by_cases hcov : delta.covered = 0 <;>
          simp [summaryItems, codeListedB, itemOf, hp, hd, hpr, hdr, hcov])
      | (by_cases hc1 : dr.covered = 0 <;> by_cases hc2 : dr.total = 0 <;>
          simp [summaryItems, codeListedB, itemOf, hp, hd, hpr, hdr, hc1, hc2])
      | simp [summaryItems, codeListedB, itemOf, hp, hd, hpr, hdr]

theorem summaryItems_eq (diffs : List TargetStatusDiff) :
    summaryItems diffs = (diffs.filter codeListedB).map itemOf := by
  induction diffs with
  | nil => rfl
  | cons d rest ih =>
    rw [summaryItems_cons, List.filter_cons]
    by_cases hc : codeListedB d <;> simp [hc, ih]


/-- A diff the code lists always yields a named line, never `noChange`. -/
theorem itemOf_name (d : TargetStatusDiff) (h : codeListedB d = true) :
    (match itemOf d with
      | SummaryItem.sincePrev n _ => some n
      | SummaryItem.sinceRun n _ _ => some n
      | SummaryItem.noChange => none) = some d.name := by
  rcases hp : d.prev with - | p <;> rcases hd : d.delta with - | delta <;>
    rcases hpr : d.prev_run with - | pr <;> rcases hdr : d.delta_run with - | dr <;>
    simp_all [codeListedB, itemOf]

/-- C9 amended: the change summary lists exactly those targets with a
nonzero covered delta since the last report, or — only among targets with
no last-report baseline — a nonzero covered/total delta since the prior
run; and it consists of the single explicit "No changed detected" line
precisely when no target satisfies that condition.  (The original claim
also lists targets that have a last-report baseline with zero covered delta
but a nonzero prior-run delta; the code's `else if` skips those — see the
counterexample.) -/
theorem report_summary_lists (diffs : List TargetStatusDiff) :
    listedNames (changeSummary diffs)
      = (diffs.filter codeListedB).map TargetStatusDiff.name
    ∧ (changeSummary diffs = [SummaryItem.noChange] ↔ diffs.filter codeListedB = []) := by
  have hnames : ∀ l : List TargetStatusDiff, (∀ d ∈ l, codeListedB d = true) →
      listedNames (l.map itemOf) = l.map TargetStatusDiff.name := by
    intro l
    induction l with
    | nil => intro _; rfl
    | cons d rest ih =>
      intro hall
      have hd := hall d (List.mem_cons_self _ _)
      simp only [List.map_cons, listedNames, List.filterMap_cons]
      rw [itemOf_name d hd]
      simp only [List.map_cons]
      congr 1
      exact ih (fun x hx => hall x (List.mem_cons_of_mem _ hx))
  have hfilter : ∀ d ∈ diffs.filter codeListedB, codeListedB d = true :=
    fun d hd => (List.mem_filter.mp hd).2
  have hitems : listedNames (summaryItems diffs)
      = (diffs.filter codeListedB).map TargetStatusDiff.name := by
    rw [summaryItems_eq]
    exact hnames _ hfilter
  by_cases hempty : summaryItems diffs = []
  · have hfe : diffs.filter codeListedB = [] := by
      have := hitems
      rw [hempty] at this
      have hmap : (diffs.filter codeListedB).map TargetStatusDiff.name = [] := this.symm
      exact List.map_eq_nil_iff.mp hmap
    constructor
    · rw [changeSummary, if_pos hempty, hfe]
      rfl
    · rw [changeSummary, if_pos hempty]
      simp [hfe]
  · constructor
    · rw [changeSummary, if_neg hempty]
      exact hitems
    · rw [changeSummary, if_neg hempty]
      constructor
      · intro hmono
        rw [hmono] at hitems
        have : (diffs.filter codeListedB).map TargetStatusDiff.name = [] := by
          rw [← hitems]; rfl
        exact List.map_eq_nil_iff.mp this
      · intro hfe
        exfalso
        apply hempty
        rw [summaryItems_eq, hfe]
        rfl

/-- C9 fails as stated: a target whose last-report baseline exists with a
zero covered delta but whose prior-run covered/total delta is nonzero
(`curr = 100/30`, previous report `100/30`, prior run `90/20`) satisfies
the claim's listing condition, yet the code's `else if` never reaches the
prior-run branch and the summary reports that nothing changed. -/
theorem report_summary_cex :
    changeSummary [get_diff (some [("a", ⟨90, 20, 0⟩)]) "a" ⟨100, 30, 0⟩
        (some [("a", ⟨100, 30, 0⟩)]) none] = [SummaryItem.noChange]
    ∧ specListedB (get_diff (some [("a", ⟨90, 20, 0⟩)]) "a" ⟨100, 30, 0⟩
        (some [("a", ⟨100, 30, 0⟩)]) none) = true := by
  decide

/-- Rust `str::split("/")`: fields between `/` separators, empties kept. -/
def splitSlash (cs : List Char) : List (List Char) :=
  cs.foldr
    (fun c acc =>
      match acc with
      | [] => [[c]]
      | field :: rest => if c = '/' then [] :: field :: rest else (c :: field) :: rest)
    [[]]

/-- `str::parse::<u32>()`: decimal parse failing on overflow past `u32`. -/
def parseU32 (cs : List Char) : Option Nat :=
  match parseNat cs with
  | some n => if n < 4294967296 then some n else none
  | none => none

/-- One call from the target task into `Feedback`. -/
inductive TargetEvent
  | setTotalEv (target : String) (n : Nat)
  | addCoveredEv (target : String) (n : Nat)
  | addErrorsEv (target : String) (n : Nat)
deriving DecidableEq, Repr

/-- `Target::filter_output` (`src/hfuzz/target.rs:85-127`) over the lines of
the subprocess's standard error (modelled newline-stripped): a line starting
with `Sz:` has its 9th `/`-delimited field read — a missing field or a
failed `u32` parse logs an error and stops this target's parsing, the
literal field `0` is skipped, any other value is fed to
`feedback.add_covered`; all other lines are ignored. -/
def filter_output (name : String) : List (List Char) → List TargetEvent
  | [] => []
  | line :: rest =>
    if "Sz:".data.isPrefixOf line then
      match (splitSlash line).drop 8 with
      | [] => []
      | f :: _ =>
        if f = ['0'] then filter_output name rest
        else
          match parseU32 f with
          | none => []
          | some e => .addCoveredEv name e :: filter_output name rest
    else filter_output name rest

/-- A debounced filesystem notification as `Target::watch_report` receives
it (`notify::DebouncedEvent`), reduced to the file name the code inspects. -/
inductive FsEvent
  | create (fileName : String)
  | write (fileName : String)
  | remove (fileName : String)
  | otherEv
deriving DecidableEq, Repr

/-- `Target::watch_report`'s watcher loop (`src/hfuzz/target.rs:196-225`):
a `Create` or `Write` of a file named `HONGGFUZZ.REPORT.TXT` reports one
error occurrence — `feedback.add_errors(&target, 1)`, with no file path
attached; a `Remove` of a file named like the target ends the loop; other
events are ignored.  (A channel receive error also ends the loop; not
modelled.) -/
def watch_report (target : String) : List FsEvent → List TargetEvent
  | [] => []
  | ev :: rest =>
    match ev with
    | .create f =>
      if f = "HONGGFUZZ.REPORT.TXT" then
        .addErrorsEv target 1 :: watch_report target rest
      else watch_report target rest
    | .write f =>
      if f = "HONGGFUZZ.REPORT.TXT" then
        .addErrorsEv target 1 :: watch_report target rest
      else watch_report target rest
    | .remove f => if f = target then [] else watch_report target rest
    | .otherEv => watch_report target rest

/-- C10 fails as stated: there is no crash-line parser.  A line
`Crash: saved as 'foo.bin'` on a target's output stream does not start with
`Sz:` and produces no feedback call at all — in particular not the claimed
single error occurrence tagged with a resolved file path. -/
theorem target_crash_line_cex :
    filter_output "t"
      [("Crash: saved as ".data ++ [Char.ofNat 39] ++ "foo.bin".data ++ [Char.ofNat 39])]
      = []
    ∧ ∀ n, ([] : List TargetEvent).length ≠ n + 1 := by
  constructor
  · decide
  · intro n
    simp

/-- C10 amended: crash reporting does not parse output lines at all.  Every
output line not starting with `Sz:` — crash lines included — is ignored by
`filter_output`; crashes are observed by the filesystem watcher instead,
where each `Create` or `Write` event for a file named
`HONGGFUZZ.REPORT.TXT` in the target's workspace reports exactly one error
occurrence via `add_errors(target, 1)`, with no file path attached. -/
theorem target_crash_reporting (name : String) (line : List Char)
    (rest : List (List Char)) (target : String) (f : String) (evs : List FsEvent)
    (hline : ¬ ("Sz:".data.isPrefixOf line = true))
    (hf : f = "HONGGFUZZ.REPORT.TXT") :
    filter_output name (line :: rest) = filter_output name rest
    ∧ watch_report target (FsEvent.create f :: evs)
        = TargetEvent.addErrorsEv target 1 :: watch_report target evs
    ∧ watch_report target (FsEvent.write f :: evs)
        = TargetEvent.addErrorsEv target 1 :: watch_report target evs := by
  subst hf
  refine ⟨?_, rfl, rfl⟩
  rw [filter_output]
  simp only [Bool.not_eq_true] at hline
  rw [hline]
  simp

theorem target_crash_reporting_witness :
    filter_output "t" ["hello".data, "Sz:a/b/c/d/e/f/g/h/7/x".data]
        = filter_output "t" ["Sz:a/b/c/d/e/f/g/h/7/x".data]
    ∧ watch_report "t" [FsEvent.create "HONGGFUZZ.REPORT.TXT"]
        = [TargetEvent.addErrorsEv "t" 1]
    ∧ watch_report "t" [FsEvent.write "HONGGFUZZ.REPORT.TXT"]
        = [TargetEvent.addErrorsEv "t" 1] := by
  have h := target_crash_reporting "t" "hello".data ["Sz:a/b/c/d/e/f/g/h/7/x".data]
    "t" "HONGGFUZZ.REPORT.TXT" [] (by decide) rfl
  exact h

/-- The recorded events of the supersede protocol. -/
inductive CoordEv
  | cancelSent
  | run1Completed
  | run2CheckoutStarted
deriving DecidableEq, Repr

/-- State of the first run's spawned task. -/
inductive Run1State
  | running
  | finished
deriving DecidableEq, Repr

/-- Program counter of the superseding `push_hook` handler: about to
broadcast cancellation in `get_sync`; blocked on
`sync.notify.notified().await`; or resumed with the new run spawned and its
checkout under way. -/
inductive H2State
  | atCancel
  | atWait
  | spawned
deriving DecidableEq, Repr

/-- Joint state of the branch's coordination: the first run's task, the
superseding handler, the completion permit of the branch token's `Notify`,
and the recorded event trace. -/
structure CoordSys where
  run1 : Run1State
  h2 : H2State
  notified : Bool
  trace : List CoordEv
deriving DecidableEq, Repr

/-- Interleaving semantics of a second push racing the first run's task
(`src/server.rs`).  The first run's task may finish at any instant: after
`run_fuzzers` returns (all target subprocesses awaited) it stores the
completion permit via `notify.notify_one()` (line 361).  The handler first
broadcasts cancellation on the existing token (`get_sync`, line 61), then
blocks on `sync.notify.notified().await` (line 337), which can only resume
once the permit is stored, and only then spawns the new `run_fuzzers`,
whose checkout follows (line 142). -/
inductive CoordStep : CoordSys → CoordSys → Prop
  | run1Finishes (h2 : H2State) (notified : Bool) (trace : List CoordEv) :
      CoordStep ⟨.running, h2, notified, trace⟩
        ⟨.finished, h2, true, trace ++ [.run1Completed]⟩
  | sendCancel (run1 : Run1State) (notified : Bool) (trace : List CoordEv) :
      CoordStep ⟨run1, .atCancel, notified, trace⟩
        ⟨run1, .atWait, notified, trace ++ [.cancelSent]⟩
  | wakeAndSpawn (run1 : Run1State) (trace : List CoordEv) :
      CoordStep ⟨run1, .atWait, true, trace⟩
        ⟨run1, .spawned, true, trace ++ [.run2CheckoutStarted]⟩

/-- States reachable from a push to a branch whose run is still active. -/
inductive CoordReach : CoordSys → Prop
  | init : CoordReach ⟨.running, .atCancel, false, []⟩
  | step {s s' : CoordSys} : CoordReach s → CoordStep s s' → CoordReach s'

/-- The finitely many reachable coordination states. -/
def coordStates : List CoordSys :=
  [⟨.running, .atCancel, false, []⟩,
   ⟨.finished, .atCancel, true, [.run1Completed]⟩,
   ⟨.running, .atWait, false, [.cancelSent]⟩,
   ⟨.finished, .atWait, true, [.run1Completed, .cancelSent]⟩,
   ⟨.finished, .atWait, true, [.cancelSent, .run1Completed]⟩,
   ⟨.finished, .spawned, true, [.run1Completed, .cancelSent, .run2CheckoutStarted]⟩,
   ⟨.finished, .spawned, true, [.cancelSent, .run1Completed, .run2CheckoutStarted]⟩]

theorem coordReach_inv {s : CoordSys} (h : CoordReach s) : s ∈ coordStates := by
  induction h with
  | init => decide
  | step _ hstep ih =>
    fin_cases ih <;> cases hstep <;> decide

/-- C1: superseding a branch's active run.  In every reachable state the
new run is spawned only after the first run's task has finished (at most
one active run at any instant); whenever the second run's checkout has
started, it is the last recorded event and both the cancellation broadcast
and the first run's completion signal precede it; and when the cancellation
was sent while the first run was still active (trace beginning with
`cancelSent`), the recorded order is exactly
cancel-sent → first-run-completed → second-run-checkout-started. -/
theorem run_supervisor_supersede (s : CoordSys) (h : CoordReach s) :
    (s.h2 = H2State.spawned → s.run1 = Run1State.finished)
    ∧ (CoordEv.run2CheckoutStarted ∈ s.trace →
        s.trace.getLast? = some CoordEv.run2CheckoutStarted
        ∧ CoordEv.run1Completed ∈ s.trace ∧ CoordEv.cancelSent ∈ s.trace)
    ∧ (s.trace.head? = some CoordEv.cancelSent →
        s.trace ∈ ([[CoordEv.cancelSent],
          [CoordEv.cancelSent, CoordEv.run1Completed],
          [CoordEv.cancelSent, CoordEv.run1Completed, CoordEv.run2CheckoutStarted]] :
            List (List CoordEv))) := by
  have hmem := coordReach_inv h
  fin_cases hmem <;> exact (by decide)

theorem run_supervisor_supersede_witness :
    ([CoordEv.cancelSent, CoordEv.run1Completed, CoordEv.run2CheckoutStarted].getLast?
        = some CoordEv.run2CheckoutStarted)
    ∧ CoordEv.run1Completed
        ∈ [CoordEv.cancelSent, CoordEv.run1Completed, CoordEv.run2CheckoutStarted] := by
  have hreach : CoordReach ⟨Run1State.finished, H2State.spawned, true,
      [CoordEv.cancelSent, CoordEv.run1Completed, CoordEv.run2CheckoutStarted]⟩ :=
    CoordReach.step
      (CoordReach.step
        (CoordReach.step CoordReach.init (CoordStep.sendCancel _ _ _))
        (CoordStep.run1Finishes _ _ _))
      (CoordStep.wakeAndSpawn _ _)
  have h := run_supervisor_supersede _ hreach
  exact ⟨(h.2.1 (by decide)).1, (h.2.1 (by decide)).2.1⟩

/-- Outcome of the `run_fuzzers` future inside the spawned run task: normal
`Ok` return, normal `Err` return (logged), or a panic unwinding the future.
Cancellation is not a separate case: a cancelled run kills its targets and
`run_fuzzers` still returns normally. -/
inductive RunOutcome
  | success
  | failure
  | panics
deriving DecidableEq, Repr

/-- A signal the run task emits. -/
inductive TaskSig
  | notifyOne
deriving DecidableEq, Repr

/-- Task semantics: a panic is an exception that aborts the rest of the
task body; emitted signals accumulate in the state. -/
abbrev TaskM (α : Type) := ExceptT Unit (StateM (List TaskSig)) α

/-- The `run_fuzzers(...).await` call as the spawned task sees it. -/
def runFuzzersM : RunOutcome → TaskM (Except String Unit)
  | .success => pure (Except.ok ())
  | .failure => pure (Except.error "run error")
  | .panics => throw ()

/-- `notify.notify_one()`. -/
def notifyOneM : TaskM Unit :=
  monadLift (modify (fun sigs => sigs ++ [TaskSig.notifyOne]) : StateM (List TaskSig) Unit)

/-- The spawned run task of `push_hook` (`src/server.rs:356-362`): match on
the `run_fuzzers` result — both arms continue (the `Err` arm merely logs) —
then `notify.notify_one()`.  Nothing guards the notify against unwinding:
no drop guard, and the `JoinHandle` that catches the panic is never
awaited. -/
def spawnedRunTask (o : RunOutcome) : TaskM Unit := do
  let r ← runFuzzersM o
  match r with
  | Except.ok _ => pure ()
  | Except.error _ => pure ()
  notifyOneM

/-- The signals actually emitted by one execution of the run task. -/
def runTaskSignals (o : RunOutcome) : List TaskSig :=
  (((spawnedRunTask o).run).run []).2

/-- C2: the completion signal fires exactly once when `run_fuzzers` returns
normally — with success or error, which includes cancellation — but a panic
unwinds the task before `notify_one` executes, so no completion signal is
ever emitted and a superseding push waiting on it blocks forever.  This
contradicts the claim (and the spec's stated central correctness property)
that the signal fires exactly once on *any* termination including panic. -/
theorem run_task_completion_signal :
    runTaskSignals RunOutcome.success = [TaskSig.notifyOne]
    ∧ runTaskSignals RunOutcome.failure = [TaskSig.notifyOne]
    ∧ runTaskSignals RunOutcome.panics = [] := by
  exact ⟨rfl, rfl, rfl⟩

end FuzzingCI
